import Mathlib

/-!
Verification of the torn-territories rendering library (`src/torn-territories/src/lib.rs`)
against its natural-language specification.

The Rust code is shallowly embedded: grayscale/RGBA images become `Img α` (a size
together with a total pixel function), the embedded tile store becomes an abstract
family of images indexed by 1-based tile column/row, machine integers become `Nat`,
and the `f32` arithmetic of the geometric helpers is embedded over `ℚ` (exact
arithmetic; where IEEE special values matter, an explicit float type `F32` with
infinities and NaN is used).
-/

namespace TornTerritories

/-- An image: dimensions plus a total pixel function.  Models `image::GrayImage`
(`α = Nat`, one 8-bit luma channel) and `image::RgbaImage` (`α = Rgba`). -/
structure Img (α : Type) where
  width : Nat
  height : Nat
  pix : Nat → Nat → α

/-- Model of `GenericImageView::view(x, y, w, h)`: a sub-view of an image.  In the source all
views are taken in bounds, so the model simply offsets the pixel function. -/
def viewIm {α : Type} (img : Img α) (x y w h : Nat) : Img α :=
  ⟨w, h, fun i j => img.pix (x + i) (y + j)⟩

/-- Model of `image::imageops::replace(dst, src, dx, dy)`: copy `src` onto `dst` with its top
left corner at `(dx, dy)`.  Pixels outside the copied rectangle are unchanged. -/
def replaceIm {α : Type} (dst src : Img α) (dx dy : Nat) : Img α :=
  ⟨dst.width, dst.height, fun i j =>
    if dx ≤ i ∧ i < dx + src.width ∧ dy ≤ j ∧ j < dy + src.height then
      src.pix (i - dx) (j - dy)
    else dst.pix i j⟩

@[simp] theorem viewIm_width {α : Type} (img : Img α) (x y w h : Nat) :
    (viewIm img x y w h).width = w := rfl

@[simp] theorem viewIm_height {α : Type} (img : Img α) (x y w h : Nat) :
    (viewIm img x y w h).height = h := rfl

@[simp] theorem viewIm_pix {α : Type} (img : Img α) (x y w h i j : Nat) :
    (viewIm img x y w h).pix i j = img.pix (x + i) (y + j) := rfl

@[simp] theorem replaceIm_width {α : Type} (dst src : Img α) (dx dy : Nat) :
    (replaceIm dst src dx dy).width = dst.width := rfl

@[simp] theorem replaceIm_height {α : Type} (dst src : Img α) (dx dy : Nat) :
    (replaceIm dst src dx dy).height = dst.height := rfl

theorem replaceIm_pix {α : Type} (dst src : Img α) (dx dy i j : Nat) :
    (replaceIm dst src dx dy).pix i j =
      if dx ≤ i ∧ i < dx + src.width ∧ dy ≤ j ∧ j < dy + src.height then
        src.pix (i - dx) (j - dy)
      else dst.pix i j := rfl

/-! ### Map constants (lib.rs lines 263-272) -/

def MAP_WIDTH : Nat := 6256
def MAP_HEIGHT : Nat := 3648
def TILE_WIDTH : Nat := 600
def TILE_HEIGHT : Nat := 400

/-! ### Tile stitching: `load_map_segment` (lib.rs lines 500-537)

The embedded tile store `MapTiles` is abstracted as a family
`tiles : Nat → Nat → Img Nat`, where `tiles c r` is the decoded grayscale image of
the embedded file `map_<c>_<r>.tiff` (1-indexed tile column `c`, row `r`), exactly
as fetched by the source's `MapTiles::get` + `TiffDecoder` block.  The `while` loop
is embedded as a fuel-indexed structural recursion; `lmsFuel` is provably more than
the number of iterations the loop performs (each iteration strictly decreases
`lmsMeasure`), so the fuel never runs out. -/

/-- The pixel of the source tile grid at global map coordinate `(gx, gy)`:
1-indexed tile column `gx / 600 + 1`, row `gy / 400 + 1`, in-tile offset
`(gx mod 600, gy mod 400)`. -/
def tilePix (tiles : Nat → Nat → Img Nat) (gx gy : Nat) : Nat :=
  (tiles (gx / TILE_WIDTH + 1) (gy / TILE_HEIGHT + 1)).pix (gx % TILE_WIDTH) (gy % TILE_HEIGHT)

/-- One-to-one embedding of the `while cursor.1 < (y + h)` loop of
`load_map_segment`.  `cx, cy` is the cursor, `img` the partially written output
buffer; the strip width/height, tile indices and in-tile offsets follow lib.rs
lines 505-510, the copy is lib.rs lines 521-527, and the cursor advance is lib.rs
lines 529-533 (`cursor.0 + width >= x + w` wraps to the next band). -/
def lmsGo (tiles : Nat → Nat → Img Nat) (x y w h : Nat) :
    Nat → Img Nat → Nat → Nat → Img Nat
  | 0, img, _, _ => img
  | fuel + 1, img, cx, cy =>
    if cy < y + h then
      let x_tile := cx / TILE_WIDTH + 1
      let y_tile := cy / TILE_HEIGHT + 1
      let x_min := cx % TILE_WIDTH
      let y_min := cy % TILE_HEIGHT
      let sw := min ((x + w) - cx) (TILE_WIDTH - cx % TILE_WIDTH)
      let sh := min ((y + h) - cy) (TILE_HEIGHT - cy % TILE_HEIGHT)
      let img2 := replaceIm img (viewIm (tiles x_tile y_tile) x_min y_min sw sh)
        (cx - x) (cy - y)
      if x + w ≤ cx + sw then
        lmsGo tiles x y w h fuel img2 x (cy + sh)
      else
        lmsGo tiles x y w h fuel img2 (cx + sw) cy
    else img

/-- Strict upper bound on the remaining loop iterations from cursor `(cx, cy)`. -/
def lmsMeasure (x y w h cx cy : Nat) : Nat :=
  ((y + h) - cy) * (x + w + 1) + ((x + w) - cx)

/-- Fuel sufficient for the whole loop starting at cursor `(x, y)`. -/
def lmsFuel (x y w h : Nat) : Nat := h * (x + w + 1) + w + 1

/-- Model of `load_map_segment(x, y, w, h)`: allocate a `w × h` zeroed grayscale buffer
(`GrayImage::new`) and run the stitching loop from cursor `(x, y)`. -/
def load_map_segment (tiles : Nat → Nat → Img Nat) (x y w h : Nat) : Img Nat :=
  lmsGo tiles x y w h (lmsFuel x y w h) ⟨w, h, fun _ _ => 0⟩ x y

/-- A strip copied from a single tile reproduces `tilePix` at every global
coordinate it covers: the strip never crosses a tile boundary, so tile index and
in-tile offset are constant across it. -/
theorem tilePix_strip (tiles : Nat → Nat → Img Nat) (x y cx cy sw sh i j : Nat)
    (hx : x ≤ cx) (hy : y ≤ cy)
    (h1 : cx ≤ x + i) (h2 : x + i < cx + sw) (h3 : sw ≤ 600 - cx % 600)
    (h4 : cy ≤ y + j) (h5 : y + j < cy + sh) (h6 : sh ≤ 400 - cy % 400) :
    (tiles (cx / 600 + 1) (cy / 400 + 1)).pix (cx % 600 + (i - (cx - x)))
        (cy % 400 + (j - (cy - y))) = tilePix tiles (x + i) (y + j) := by
  unfold tilePix TILE_WIDTH TILE_HEIGHT
  have e1 : (x + i) / 600 = cx / 600 := by omega
  have e2 : (x + i) % 600 = cx % 600 + (i - (cx - x)) := by omega
  have e3 : (y + j) / 400 = cy / 400 := by omega
  have e4 : (y + j) % 400 = cy % 400 + (j - (cy - y)) := by omega
  rw [e1, e2, e3, e4]

theorem lmsMeasure_wrap_lt (x y w h cx cy S : Nat)
    (hS1 : 1 ≤ S) (hS2 : S ≤ (y + h) - cy) :
    lmsMeasure x y w h x (cy + S) < lmsMeasure x y w h cx cy := by
  unfold lmsMeasure
  have e1 : (y + h) - (cy + S) = ((y + h) - cy) - S := by omega
  rw [e1, Nat.sub_mul]
  have e3 : 1 * (x + w + 1) ≤ S * (x + w + 1) :=
    Nat.mul_le_mul_right (x + w + 1) hS1
  have e4 : 1 * (x + w + 1) ≤ ((y + h) - cy) * (x + w + 1) :=
    Nat.mul_le_mul_right (x + w + 1) (show 1 ≤ (y + h) - cy by omega)
  omega

theorem lmsMeasure_advance_lt (x y w h cx cy S : Nat) (hS1 : 1 ≤ S)
    (hlt : cx + S < x + w) :
    lmsMeasure x y w h (cx + S) cy < lmsMeasure x y w h cx cy := by
  unfold lmsMeasure
  omega

/-- Loop invariant of the stitching loop: running the loop from cursor `(cx, cy)`
writes exactly the pixels at or after the cursor (the rest of the current band of
rows, then all later bands), each with its `tilePix` value, and leaves every other
pixel of the buffer unchanged. -/
theorem lmsGo_pix (tiles : Nat → Nat → Img Nat) (x y w h : Nat) :
    ∀ (fuel cx cy : Nat) (img : Img Nat), x ≤ cx → y ≤ cy →
      lmsMeasure x y w h cx cy < fuel →
      ∀ i j, i < w → j < h →
      (lmsGo tiles x y w h fuel img cx cy).pix i j =
        if cy ≤ y + j ∧
            (cy + min ((y + h) - cy) (TILE_HEIGHT - cy % TILE_HEIGHT) ≤ y + j ∨ cx ≤ x + i)
        then tilePix tiles (x + i) (y + j)
        else img.pix i j := by
  intro fuel
  induction fuel with
  | zero =>
    intro cx cy img _ _ hfuel i j _ _
    exact absurd hfuel (Nat.not_lt_zero _)
  | succ fuel ih =>
    intro cx cy img hx hy hfuel i j hi hj
    simp only [lmsGo]
    simp only [TILE_WIDTH, TILE_HEIGHT] at ih ⊢
    by_cases hcy : cy < y + h
    · rw [if_pos hcy]
      by_cases hwrap : x + w ≤ cx + min ((x + w) - cx) (600 - cx % 600)
      · rw [if_pos hwrap]
        have hdec : lmsMeasure x y w h x (cy + min ((y + h) - cy) (400 - cy % 400)) <
            lmsMeasure x y w h cx cy :=
          lmsMeasure_wrap_lt x y w h cx cy _ (by omega) (by omega)
        rw [ih x (cy + min ((y + h) - cy) (400 - cy % 400)) _ le_rfl (by omega)
          (by omega) i j hi hj]
        rw [replaceIm_pix]
        simp only [viewIm_pix, viewIm_width, viewIm_height]
        split_ifs with h1 h2 h3 h4 h5 h6 <;>
          first
            | rfl
            | omega
            | (exact tilePix_strip tiles x y cx cy (min ((x + w) - cx) (600 - cx % 600))
                (min ((y + h) - cy) (400 - cy % 400)) i j hx hy (by omega) (by omega)
                (by omega) (by omega) (by omega) (by omega))
      · rw [if_neg hwrap]
        have hdec : lmsMeasure x y w h (cx + min ((x + w) - cx) (600 - cx % 600)) cy <
            lmsMeasure x y w h cx cy :=
          lmsMeasure_advance_lt x y w h cx cy _ (by omega) (by omega)
        rw [ih (cx + min ((x + w) - cx) (600 - cx % 600)) cy _ (by omega) hy
          (by omega) i j hi hj]
        rw [replaceIm_pix]
        simp only [viewIm_pix, viewIm_width, viewIm_height]
        split_ifs with h1 h2 h3 h4 h5 h6 <;>
          first
            | rfl
            | omega
            | (exact tilePix_strip tiles x y cx cy (min ((x + w) - cx) (600 - cx % 600))
                (min ((y + h) - cy) (400 - cy % 400)) i j hx hy (by omega) (by omega)
                (by omega) (by omega) (by omega) (by omega))
    · rw [if_neg hcy, if_neg (by omega)]

/-- C1.  Tile stitching is seam-correct: for every request rectangle inside the map
and every local position `(i, j)` with `i < w` and `j < h`, the pixel of
`load_map_segment(x, y, w, h)` at `(i, j)` equals the pixel of the source tile with
1-indexed column `(x+i)/600 + 1` and row `(y+j)/400 + 1` at in-tile offset
`((x+i) mod 600, (y+j) mod 400)` — so no pixel at any tile boundary (horizontal,
vertical, or a 2×2 four-tile corner) is duplicated, missing or off by one. -/
theorem load_map_segment_seam_correct (tiles : Nat → Nat → Img Nat)
    (x y w h i j : Nat) (hxw : x + w ≤ MAP_WIDTH) (hyh : y + h ≤ MAP_HEIGHT)
    (hi : i < w) (hj : j < h) :
    (load_map_segment tiles x y w h).pix i j = tilePix tiles (x + i) (y + j) := by
  have hμ : lmsMeasure x y w h x y < lmsFuel x y w h := by
    unfold lmsMeasure lmsFuel
    have e : (y + h) - y = h := by omega
    rw [e]
    omega
  rw [load_map_segment, lmsGo_pix tiles x y w h (lmsFuel x y w h) x y _ le_rfl le_rfl
    hμ i j hi hj]
  rw [if_pos ⟨Nat.le_add_right y j, Or.inr (Nat.le_add_right x i)⟩]

/-- A concrete tile store for witnesses: the pixel value encodes the tile indices
and in-tile offset, so pixels of distinct tiles are distinguishable. -/
def tilesW : Nat → Nat → Img Nat :=
  fun c r => ⟨600, 400, fun u v => 1000000 * c + 10000 * r + 600 * v + u⟩

/-- Witness for C1 at the claim's own example: the rectangle `x=595, y=0, w=20,
h=10` straddles the column boundary at `x=600`; local `(5, 0)` comes from tile
column 2, row 1 at offset `(0, 0)` — i.e. global `(600, 0)`. -/
theorem load_map_segment_seam_correct_witness :
    595 + 20 ≤ MAP_WIDTH ∧ 0 + 10 ≤ MAP_HEIGHT ∧
      (load_map_segment tilesW 595 0 20 10).pix 5 0 = tilePix tilesW (595 + 5) (0 + 0) :=
  ⟨by decide, by decide,
    load_map_segment_seam_correct tilesW 595 0 20 10 5 0 (by decide) (by decide)
      (by decide) (by decide)⟩

/-! ### `fit_view_box` (lib.rs lines 369-381)

The input is a `usvg::Rect` of finite `f32` coordinates; its coordinates are
embedded as exact rationals.  The `as u32` casts are Rust's saturating
float-to-int casts. -/

/-- Output viewport rectangle, modeling `image::math::Rect` (`u32` fields). -/
structure URect where
  x : Nat
  y : Nat
  width : Nat
  height : Nat
deriving DecidableEq

/-- Rust's saturating `f32 as u32` cast on an exact (finite) rational value:
negative values go to 0, values above `u32::MAX` saturate, otherwise the
fractional part is truncated. -/
def ratToU32 (v : ℚ) : Nat :=
  if v < 0 then 0 else min v.floor.toNat 4294967295

/-- Rust `u32::clamp(lo, hi)` (callers guarantee `lo ≤ hi`). -/
def u32Clamp (v lo hi : Nat) : Nat := min (max v lo) hi

/-- Model of `fit_view_box` (lib.rs 369-381): clamp width/height to the map size, then
clamp x/y into `[0, MAP_WIDTH - width]` resp. `[0, MAP_HEIGHT - height]`. -/
def fit_view_box (bx b_y bw bh : ℚ) : URect :=
  let width := min (ratToU32 bw) MAP_WIDTH
  let height := min (ratToU32 bh) MAP_HEIGHT
  let x := u32Clamp (ratToU32 bx) 0 (MAP_WIDTH - width)
  let y := u32Clamp (ratToU32 b_y) 0 (MAP_HEIGHT - height)
  ⟨x, y, width, height⟩

/-- C2.  `fit_view_box` output satisfies `0 ≤ x`, `0 ≤ y` (its fields are
naturals), `x + width ≤ MAP_WIDTH`, `y + height ≤ MAP_HEIGHT`; width and height
equal the input's width/height (as `u32`) clamped to the map size, never
upscaled; and an ideal rectangle starting at a negative coordinate is slid
inward to 0 rather than truncated or rejected. -/
theorem fit_view_box_spec (bx b_y bw bh : ℚ) :
    (fit_view_box bx b_y bw bh).x + (fit_view_box bx b_y bw bh).width ≤ MAP_WIDTH ∧
    (fit_view_box bx b_y bw bh).y + (fit_view_box bx b_y bw bh).height ≤ MAP_HEIGHT ∧
    (fit_view_box bx b_y bw bh).width = min (ratToU32 bw) MAP_WIDTH ∧
    (fit_view_box bx b_y bw bh).height = min (ratToU32 bh) MAP_HEIGHT ∧
    (bx < 0 → (fit_view_box bx b_y bw bh).x = 0) ∧
    (b_y < 0 → (fit_view_box bx b_y bw bh).y = 0) := by
  refine ⟨?_, ?_, rfl, rfl, ?_, ?_⟩
  · show u32Clamp (ratToU32 bx) 0 (MAP_WIDTH - min (ratToU32 bw) MAP_WIDTH) +
      min (ratToU32 bw) MAP_WIDTH ≤ MAP_WIDTH
    simp only [u32Clamp, MAP_WIDTH]
    omega
  · show u32Clamp (ratToU32 b_y) 0 (MAP_HEIGHT - min (ratToU32 bh) MAP_HEIGHT) +
      min (ratToU32 bh) MAP_HEIGHT ≤ MAP_HEIGHT
    simp only [u32Clamp, MAP_HEIGHT]
    omega
  · intro hneg
    show u32Clamp (ratToU32 bx) 0 (MAP_WIDTH - min (ratToU32 bw) MAP_WIDTH) = 0
    rw [ratToU32, if_pos hneg]
    simp [u32Clamp]
  · intro hneg
    show u32Clamp (ratToU32 b_y) 0 (MAP_HEIGHT - min (ratToU32 bh) MAP_HEIGHT) = 0
    rw [ratToU32, if_pos hneg]
    simp [u32Clamp]

/-- Witness for C2 at the claim's example: an ideal rectangle starting at
`x = -10` is slid inward to `x = 0`, and the returned width is exactly the
clamped input width. -/
theorem fit_view_box_spec_witness :
    (fit_view_box (-10 : ℚ) 20 100 50).x = 0 ∧
      (fit_view_box (-10 : ℚ) 20 100 50).width = 100 :=
  ⟨(fit_view_box_spec (-10) 20 100 50).2.2.2.2.1 (by norm_num),
    ((fit_view_box_spec (-10) 20 100 50).2.2.1).trans (by decide)⟩

/-! ### `TerritoryId::from_str` (lib.rs lines 53-76) and `TerritoryId::info`
(lib.rs lines 247-251)

Strings are embedded as their UTF-8 byte lists.  The registry `TERRITORY_INFO`
is generated at build time (`include!(codegen.rs)`); its contents are not part of
the sources, so it is abstracted as an arbitrary partial map
`reg : List Nat → Option TerritoryInfo`, with `contains_key` = `isSome` and
`get` = the lookup itself.  The validation claims hold for every registry. -/

inductive SimplePathSegment where
  | MoveTo (x y : ℚ)
  | LineTo (x y : ℚ)
  | Quadratic (x1 y1 x y : ℚ)
  | CurveTo (x1 y1 x2 y2 x y : ℚ)
  | ClosePath

/-- Model of `TerritoryInfo` (lib.rs 253-259). -/
structure TerritoryInfo where
  shape : List SimplePathSegment
  sector : Nat
  db_id : Int
  slots : Nat
  neighbors : List (List Nat)

/-- Model of `TerritoryIdError` (lib.rs 13-18). -/
inductive TerritoryIdError where
  | InvalidLength : Nat → TerritoryIdError
  | DoesNotExist : TerritoryIdError
  | InvalidEncoding : TerritoryIdError
deriving DecidableEq

/-- Model of `str::is_ascii`: every byte is below 128. -/
def isAsciiStr (s : List Nat) : Bool := s.all (fun c => c < 128)

/-- Model of `TerritoryId::from_str` (lib.rs 56-75): reject non-ASCII strings first, then
strings whose byte length is not 3, then ids absent from the registry. -/
def from_str (reg : List Nat → Option TerritoryInfo) (s : List Nat) :
    Except TerritoryIdError (List Nat) :=
  if isAsciiStr s = false then .error .InvalidEncoding
  else if s.length ≠ 3 then .error (.InvalidLength s.length)
  else if (reg s).isSome = false then .error .DoesNotExist
  else .ok s

/-- Model of `TerritoryId::info` (lib.rs 247-251): `TERRITORY_INFO.get(self).unwrap()`;
`none` models the unwrap panic on a missing key. -/
def TerritoryId.info (reg : List Nat → Option TerritoryInfo) (id : List Nat) :
    Option TerritoryInfo := reg id

/-- C4 counterexample: `"é"` (UTF-8 bytes `[195, 169]`) has byte length 2 ≠ 3, so
the claim demands the length-validation error `InvalidLength 2`; the code checks
`is_ascii` first and returns `InvalidEncoding` instead (shown here for the empty
registry; the validation errors are registry-independent). -/
theorem from_str_counterexample :
    from_str (fun _ => none) [195, 169] = .error .InvalidEncoding ∧
      from_str (fun _ => none) [195, 169] ≠ .error (.InvalidLength 2) := by
  constructor
  · rfl
  · intro hcontra
    simp only [from_str, isAsciiStr] at hcontra
    simp at hcontra

/-- C4 amended.  Construction succeeds exactly when the string is 3 bytes of
ASCII and a key of the registry.  A string containing non-ASCII bytes fails with
`InvalidEncoding` (this check runs first, so it wins even when the length is also
wrong); an ASCII string of length ≠ 3 fails with `InvalidLength`; an ASCII
3-byte string not in the registry fails with `DoesNotExist`.  The validation
errors are independent of registry contents (`reg` is universally quantified). -/
theorem from_str_amended (reg : List Nat → Option TerritoryInfo) (s : List Nat) :
    (isAsciiStr s = false → from_str reg s = .error .InvalidEncoding) ∧
    (isAsciiStr s = true → s.length ≠ 3 →
      from_str reg s = .error (.InvalidLength s.length)) ∧
    (isAsciiStr s = true → s.length = 3 → (reg s).isSome = false →
      from_str reg s = .error .DoesNotExist) ∧
    (from_str reg s = .ok s ↔
      isAsciiStr s = true ∧ s.length = 3 ∧ (reg s).isSome = true) := by
  refine ⟨?_, ?_, ?_, ?_⟩
  · intro hna
    simp [from_str, hna]
  · intro ha hlen
    simp [from_str, ha, hlen]
  · intro ha hlen hmem
    simp [from_str, ha, hlen, hmem]
  · unfold from_str
    split_ifs with h1 h2 h3 <;> simp_all [Option.isSome_iff_ne_none]

/-- A concrete one-entry registry (key `"XOD"`, bytes `[88, 79, 68]`) for
witnesses. -/
def regW : List Nat → Option TerritoryInfo :=
  fun s => if s = [88, 79, 68] then some ⟨[.ClosePath], 1, 1, 1, []⟩ else none

/-- Witness for C4 (amended): in the one-entry registry, `"XOD"` parses
successfully, via the success characterization. -/
theorem from_str_amended_witness : from_str regW [88, 79, 68] = .ok [88, 79, 68] :=
  (from_str_amended regW [88, 79, 68]).2.2.2.mpr ⟨by decide, by decide, by rfl⟩

/-- C7.  Registry lookup is total over ids constructed through `from_str`: every
id that `from_str` accepts is a key of the registry, so the `unwrap` in
`TerritoryId::info` (modeled by `isSome`) cannot panic for such ids. -/
theorem info_total_over_from_str (reg : List Nat → Option TerritoryInfo)
    (s id : List Nat) (hok : from_str reg s = .ok id) :
    (TerritoryId.info reg id).isSome = true := by
  unfold from_str at hok
  split_ifs at hok with h1 h2 h3 <;> cases hok
  cases hb : (reg s).isSome with
  | false => exact absurd hb h3
  | true => exact hb

/-- Witness for C7: the accepted id `"XOD"` has a registry entry. -/
theorem info_total_over_from_str_witness :
    (TerritoryId.info regW [88, 79, 68]).isSome = true :=
  info_total_over_from_str regW [88, 79, 68] [88, 79, 68] (by rfl)

/-! ### `colour_from_hex` (lib.rs lines 339-349)

The string is its UTF-8 byte list (the claim restricts to ASCII strings, for
which Rust's byte-range slicing `&hex[1..=2]` etc. is exact).  `u8::from_str_radix`
is embedded faithfully from Rust core: an optional leading `+` sign is accepted
(a `-` is not consumed for unsigned types and fails as an invalid digit), the
digit string must be non-empty, and accumulation fails on overflow past 255. -/

/-- Is byte `c` an ASCII hexadecimal digit (`0-9`, `a-f`, `A-F`)? -/
def isHexDigit (c : Nat) : Bool :=
  (48 ≤ c ∧ c ≤ 57) ∨ (97 ≤ c ∧ c ≤ 102) ∨ (65 ≤ c ∧ c ≤ 70)

/-- Value of an ASCII hexadecimal digit. -/
def hexVal (c : Nat) : Nat :=
  if 48 ≤ c ∧ c ≤ 57 then c - 48
  else if 97 ≤ c ∧ c ≤ 102 then c - 87
  else c - 55

/-- Digit-accumulation loop of `from_str_radix` for `u8`, radix 16: failing on a
non-digit byte or on overflow past `u8::MAX`. -/
def parseHexDigits : List Nat → Nat → Option Nat
  | [], acc => some acc
  | c :: rest, acc =>
    if isHexDigit c then
      let acc2 := acc * 16 + hexVal c
      if 255 < acc2 then none else parseHexDigits rest acc2
    else none

/-- Model of `u8::from_str_radix(s, 16)`: empty input fails; a leading `+` followed by at
least one character is consumed, while `+` alone fails (for an unsigned type a
`-` is never consumed as a sign and then fails as an invalid digit); the
remaining digits are accumulated. -/
def fromStrRadix16U8 : List Nat → Option Nat
  | [] => none
  | [c] => if c = 43 then none else parseHexDigits [c] 0
  | c :: rest => if c = 43 then parseHexDigits rest 0 else parseHexDigits (c :: rest) 0

/-- Model of `colour_from_hex` (lib.rs 339-349): require a leading `#` and total length 7,
then parse byte pairs 1-2, 3-4, 5-6 in base 16 as the red, green and blue
components. -/
def colour_from_hex (hex : List Nat) : Option (Nat × Nat × Nat) :=
  if ¬ (hex.head? = some 35) ∨ hex.length ≠ 7 then none
  else
    match fromStrRadix16U8 ((hex.drop 1).take 2) with
    | none => none
    | some r =>
      match fromStrRadix16U8 ((hex.drop 3).take 2) with
      | none => none
      | some g =>
        match fromStrRadix16U8 ((hex.drop 5).take 2) with
        | none => none
        | some b => some (r, g, b)

/-- C10 counterexample: the ASCII string `"#+1+2+3"` is length 7, starts with
`#`, and its six remaining characters are *not* all hexadecimal digits (`+` is
not one), yet `colour_from_hex` returns `some (1, 2, 3)` because
`u8::from_str_radix` accepts a leading `+` in each two-character pair. -/
theorem colour_from_hex_counterexample :
    colour_from_hex [35, 43, 49, 43, 50, 43, 51] = some (1, 2, 3) ∧
      isHexDigit 43 = false := by
  constructor
  · rfl
  · rfl

/-- A two-byte pair is accepted by `u8::from_str_radix(_, 16)` exactly when both
bytes are hex digits, or the first byte is `+` and the second is a hex digit. -/
def pairOk (p : List Nat) : Bool :=
  match p with
  | [a, b] => (isHexDigit a && isHexDigit b) || (a == 43 && isHexDigit b)
  | _ => false

theorem hexVal_le_15 (c : Nat) (hc : isHexDigit c = true) : hexVal c ≤ 15 := by
  simp only [isHexDigit, decide_eq_true_eq] at hc
  unfold hexVal
  split_ifs <;> omega

theorem fromStrRadix16U8_pair (a b : Nat) :
    (fromStrRadix16U8 [a, b]).isSome = pairOk [a, b] := by
  cases hA : isHexDigit a with
  | true =>
    have h1 : ¬ (255 < hexVal a) := by have := hexVal_le_15 a hA; omega
    cases hB : isHexDigit b with
    | true =>
      have h2 : ¬ (255 < hexVal a * 16 + hexVal b) := by
        have := hexVal_le_15 a hA
        have := hexVal_le_15 b hB
        omega
      have h3 : ¬ (255 < hexVal b) := by have := hexVal_le_15 b hB; omega
      by_cases ha : a = 43 <;>
        simp [fromStrRadix16U8, pairOk, parseHexDigits, hA, hB, ha, h1, h2, h3]
    | false =>
      by_cases ha : a = 43 <;>
        simp [fromStrRadix16U8, pairOk, parseHexDigits, hA, hB, ha, h1]
  | false =>
    cases hB : isHexDigit b with
    | true =>
      have h3 : ¬ (255 < hexVal b) := by have := hexVal_le_15 b hB; omega
      by_cases ha : a = 43 <;>
        simp [fromStrRadix16U8, pairOk, parseHexDigits, hA, hB, ha, h3]
    | false =>
      by_cases ha : a = 43 <;>
        simp [fromStrRadix16U8, pairOk, parseHexDigits, hA, hB, ha]

theorem list_eq_seven {α : Type} (l : List α) (hlen : l.length = 7) :
    ∃ a b c d e f g, l = [a, b, c, d, e, f, g] := by
  cases l with
  | nil => simp at hlen
  | cons a l =>
  cases l with
  | nil => simp at hlen
  | cons b l =>
  cases l with
  | nil => simp at hlen
  | cons c l =>
  cases l with
  | nil => simp at hlen
  | cons d l =>
  cases l with
  | nil => simp at hlen
  | cons e l =>
  cases l with
  | nil => simp at hlen
  | cons f l =>
  cases l with
  | nil => simp at hlen
  | cons g l =>
  cases l with
  | cons x t => simp at hlen
  | nil => exact ⟨a, b, c, d, e, f, g, rfl⟩

/-- C10 amended.  For every ASCII string, `colour_from_hex` returns `Some`
exactly when the string has length 7, starts with `#`, and each of the three
two-character pairs is accepted by `u8::from_str_radix(_, 16)` — both characters
hex digits, or a `+` followed by one hex digit (the amendment the counterexample
forces); it never fails otherwise, and on success the red, green and blue
components are the base-16 parses of pairs 1-2, 3-4 and 5-6 respectively. -/
theorem colour_from_hex_amended (hex : List Nat) (hascii : isAsciiStr hex = true) :
    ((colour_from_hex hex).isSome = true ↔
      hex.length = 7 ∧ hex.head? = some 35 ∧
        pairOk ((hex.drop 1).take 2) = true ∧ pairOk ((hex.drop 3).take 2) = true ∧
        pairOk ((hex.drop 5).take 2) = true) ∧
    (∀ r g b, colour_from_hex hex = some (r, g, b) →
      fromStrRadix16U8 ((hex.drop 1).take 2) = some r ∧
      fromStrRadix16U8 ((hex.drop 3).take 2) = some g ∧
      fromStrRadix16U8 ((hex.drop 5).take 2) = some b) := by
  by_cases hlen : hex.length = 7
  · obtain ⟨a, b, c, d, e, f, g, rfl⟩ := list_eq_seven hex hlen
    by_cases h35 : a = 35
    · subst h35
      have e1 := (fromStrRadix16U8_pair b c).symm
      have e2 := (fromStrRadix16U8_pair d e).symm
      have e3 := (fromStrRadix16U8_pair f g).symm
      constructor
      · rw [colour_from_hex, if_neg (by simp)]
        simp only [List.drop_succ_cons, List.drop_zero, List.take_succ_cons,
          List.take_zero]
        cases h1 : fromStrRadix16U8 [b, c] <;> rw [h1] at e1 <;>
          cases h2 : fromStrRadix16U8 [d, e] <;> rw [h2] at e2 <;>
            cases h3 : fromStrRadix16U8 [f, g] <;> rw [h3] at e3 <;>
              simp_all
      · intro r gg bb hsome
        rw [colour_from_hex, if_neg (by simp)] at hsome
        simp only [List.drop_succ_cons, List.drop_zero, List.take_succ_cons,
          List.take_zero] at hsome ⊢
        cases h1 : fromStrRadix16U8 [b, c] <;> rw [h1] at hsome <;>
          cases h2 : fromStrRadix16U8 [d, e] <;> rw [h2] at hsome <;>
            cases h3 : fromStrRadix16U8 [f, g] <;> rw [h3] at hsome <;>
              simp_all
    · constructor
      · rw [colour_from_hex, if_pos (by simp [h35])]
        simp [h35]
      · intro r gg bb hsome
        rw [colour_from_hex, if_pos (by simp [h35])] at hsome
        cases hsome
  · constructor
    · rw [colour_from_hex, if_pos (by simp [hlen])]
      simp [hlen]
    · intro r gg bb hsome
      rw [colour_from_hex, if_pos (by simp [hlen])] at hsome
      cases hsome

/-- Witness for C10 (amended): `"#0aF1b2"` parses — all six pair characters are
hex digits. -/
theorem colour_from_hex_amended_witness :
    (colour_from_hex [35, 48, 97, 70, 49, 98, 50]).isSome = true :=
  ((colour_from_hex_amended [35, 48, 97, 70, 49, 98, 50] (by decide)).1).mpr
    ⟨rfl, rfl, by decide, by decide, by decide⟩

/-! ### `bbox_for_path` (lib.rs lines 316-337), C3 and C8

The `f32` arithmetic of the aspect-ratio fit is embedded over `F32`: finite
values are carried exactly as rationals, and the IEEE special values `inf`,
`-inf` and `NaN` keep their arithmetic and comparison rules (signed zero is not
distinguished and rounding/overflow of finite intermediate results is not
modelled: the properties below depend only on the exact values, on
finite-versus-non-finite, and on the comparisons).  The source's final
`Rect::from_xywh(x, y, width, height).unwrap()` (lib.rs 327 and 335) is kept as
an `Option`: `none` is the unwrap panic. -/

inductive F32 where
  | fin (q : ℚ)
  | inf
  | ninf
  | nan
deriving DecidableEq

/-- IEEE division.  In particular `a / 0 = ±inf` for finite `a ≠ 0` and
`0 / 0 = NaN`. -/
def F32.div : F32 → F32 → F32
  | .nan, _ => .nan
  | _, .nan => .nan
  | .fin a, .fin b =>
    if b = 0 then (if a = 0 then .nan else if 0 < a then .inf else .ninf)
    else .fin (a / b)
  | .fin _, .inf => .fin 0
  | .fin _, .ninf => .fin 0
  | .inf, .fin b => if 0 ≤ b then .inf else .ninf
  | .ninf, .fin b => if 0 ≤ b then .ninf else .inf
  | .inf, .inf => .nan
  | .inf, .ninf => .nan
  | .ninf, .inf => .nan
  | .ninf, .ninf => .nan

/-- IEEE subtraction. -/
def F32.sub : F32 → F32 → F32
  | .nan, _ => .nan
  | _, .nan => .nan
  | .fin a, .fin b => .fin (a - b)
  | .fin _, .inf => .ninf
  | .fin _, .ninf => .inf
  | .inf, .fin _ => .inf
  | .ninf, .fin _ => .ninf
  | .inf, .inf => .nan
  | .inf, .ninf => .inf
  | .ninf, .inf => .ninf
  | .ninf, .ninf => .nan

/-- IEEE multiplication (`inf * 0 = NaN`). -/
def F32.mul : F32 → F32 → F32
  | .nan, _ => .nan
  | _, .nan => .nan
  | .fin a, .fin b => .fin (a * b)
  | .fin a, .inf => if a = 0 then .nan else if 0 < a then .inf else .ninf
  | .fin a, .ninf => if a = 0 then .nan else if 0 < a then .ninf else .inf
  | .inf, .fin b => if b = 0 then .nan else if 0 < b then .inf else .ninf
  | .ninf, .fin b => if b = 0 then .nan else if 0 < b then .ninf else .inf
  | .inf, .inf => .inf
  | .inf, .ninf => .ninf
  | .ninf, .inf => .ninf
  | .ninf, .ninf => .inf

/-- IEEE `>`: any comparison involving NaN is false. -/
def F32.gt : F32 → F32 → Bool
  | .nan, _ => false
  | _, .nan => false
  | .fin a, .fin b => b < a
  | .inf, .inf => false
  | .inf, _ => true
  | _, .inf => false
  | .ninf, .ninf => false
  | _, .ninf => true
  | .ninf, _ => false

def F32.isFinite : F32 → Bool
  | .fin _ => true
  | _ => false

def F32.nonneg : F32 → Bool
  | .fin a => 0 ≤ a
  | .inf => true
  | _ => false

/-- Model of `tiny_skia_path::Rect::from_xywh(x, y, w, h)` = `from_ltrb(x, y, x+w, y+h)`:
`some` iff all edges are finite, `left ≤ right` and `top ≤ bottom` — for finite
`x`, `y` that is: `w`, `h` finite and nonnegative. -/
def rectFromXYWH (x y w h : F32) : Option (F32 × F32 × F32 × F32) :=
  if x.isFinite && y.isFinite && w.isFinite && h.isFinite
      && w.nonneg && h.nonneg then some (x, y, w, h) else none

/-- Model of `bbox_for_path` over `F32` (lib.rs 316-337), with the final
`Rect::from_xywh(...)` kept as an `Option`: `none` is the `.unwrap()` panic. -/
def bbox_for_path_f32 (bx b_y bw bh factor ar : F32) : Option (F32 × F32 × F32 × F32) :=
  let bounds_ar := bw.div bh
  if bounds_ar.gt ar then
    let width := bw.div factor
    let height := width.div ar
    let x := bx.sub ((width.mul ((F32.fin 1).sub factor)).div (F32.fin 2))
    let y := b_y.sub ((height.sub bh).div (F32.fin 2))
    rectFromXYWH x y width height
  else
    let height := bh.div factor
    let width := height.mul ar
    let y := b_y.sub ((height.mul ((F32.fin 1).sub factor)).div (F32.fin 2))
    let x := bx.sub ((width.sub bw).div (F32.fin 2))
    rectFromXYWH x y width height

/-- C8 counterexample: for the zero-height bounding box `(0, 0, 10, 0)` with
`factor = 1` and aspect ratio `1`, the aspect-ratio computation does divide by
zero (`10/0 = +inf`), but the claim's asserted consequence fails: the infinity is
consumed by the branch comparison (`inf > 1` is true), the rectangle is built
from finite values only, and `Rect::from_xywh(...).unwrap()` *succeeds*,
returning `(0, -5, 10, 10)` instead of panicking. -/
theorem bbox_for_path_zero_height_counterexample :
    (F32.fin 10).div (F32.fin 0) = F32.inf ∧
      bbox_for_path_f32 (.fin 0) (.fin 0) (.fin 10) (.fin 0) (.fin 1) (.fin 1) =
        some (.fin 0, .fin (-5), .fin 10, .fin 10) := by
  constructor
  · norm_num [F32.div]
  · norm_num [bbox_for_path_f32, F32.div, F32.gt, F32.sub, F32.mul, rectFromXYWH,
      F32.isFinite, F32.nonneg]

/-- C8 amended.  A zero-height bounding box does divide by zero in the
aspect-ratio computation, with no guard in the source; but the non-finite (or
NaN) quotient only decides which branch is taken — it does not propagate into the
rectangle.  For finite bounds with `bw ≥ 0` and positive finite `factor` and
aspect ratio, the rectangle is built from finite values and its construction
succeeds, so the degenerate case is silently accepted rather than panicking or
being rejected. -/
theorem bbox_for_path_zero_height_amended (bx b_y bw factor ar : ℚ)
    (hbw : 0 ≤ bw) (hf : 0 < factor) (har : 0 < ar) :
    (F32.div (.fin bw) (.fin 0)).isFinite = false ∧
      (bbox_for_path_f32 (.fin bx) (.fin b_y) (.fin bw) (.fin 0) (.fin factor)
          (.fin ar)).isSome = true := by
  by_cases hbw0 : bw = 0
  · subst hbw0
    refine ⟨by norm_num [F32.div, F32.isFinite], ?_⟩
    have hfz : ¬ (factor = 0) := hf.ne'
    have harz : ¬ (ar = 0) := har.ne'
    simp only [bbox_for_path_f32, F32.div, F32.gt, F32.sub, F32.mul, rectFromXYWH,
      F32.isFinite, F32.nonneg, if_pos rfl, if_neg hfz, if_neg harz]
    norm_num
  · have hbwpos : 0 < bw := lt_of_le_of_ne hbw (Ne.symm hbw0)
    refine ⟨by norm_num [F32.div, F32.isFinite, hbw0, hbwpos], ?_⟩
    have hfz : ¬ (factor = 0) := hf.ne'
    have harz : ¬ (ar = 0) := har.ne'
    simp only [bbox_for_path_f32, F32.div, F32.gt, F32.sub, F32.mul, rectFromXYWH,
      F32.isFinite, F32.nonneg, if_pos rfl, if_neg hfz, if_neg harz, hbw0, hbwpos,
      if_pos hbwpos]
    norm_num
    constructor
    · exact div_nonneg hbw hf.le
    · exact div_nonneg (div_nonneg hbw hf.le) har.le

/-- Witness for C8 (amended) at the counterexample input: `bw = 10`,
`factor = ar = 1`. -/
theorem bbox_for_path_zero_height_amended_witness :
    (F32.div (.fin 10) (.fin 0)).isFinite = false ∧
      (bbox_for_path_f32 (.fin 0) (.fin 0) (.fin 10) (.fin 0) (.fin 1)
          (.fin 1)).isSome = true :=
  bbox_for_path_zero_height_amended 0 0 10 1 1 (by norm_num) (by norm_num) (by norm_num)

/-- C3 counterexample: the claim quantifies over *every* `factor` and aspect
ratio, but at `factor = -1` (bounding box `(0, 0, 100, 1)`, aspect ratio 1) the
wide branch computes `width = 100 / -1 = -100`, so
`Rect::from_xywh(..)` returns nothing and the `.unwrap()` panics — the function
does not return the claim's formula rectangle there. -/
theorem bbox_for_path_spec_counterexample :
    bbox_for_path_f32 (.fin 0) (.fin 0) (.fin 100) (.fin 1) (.fin (-1)) (.fin 1) =
      none := by
  norm_num [bbox_for_path_f32, F32.div, F32.gt, F32.sub, F32.mul, rectFromXYWH,
    F32.isFinite, F32.nonneg]

/-- C3 amended.  For every bounding box with `bw ≥ 0` and `bh > 0` and every
*positive* `factor` and aspect ratio, `bbox_for_path` returns exactly the
rectangle the claim's formulas prescribe: if `bw/bh > ar` the wide branch
(`width = bw/factor`, `height = width/ar`,
`x = bx − width·(1−factor)/2`, `y = b_y − (height − bh)/2`), otherwise the tall
branch (`height = bh/factor`, `width = height·ar`,
`y = b_y − height·(1−factor)/2`, `x = bx − (width − bw)/2`); the final
`Rect::from_xywh(..).unwrap()` succeeds on all such inputs.  (For factor or
aspect ratio ≤ 0 — allowed by the original claim — the unwrap panics instead,
as the counterexample shows.) -/
theorem bbox_for_path_formula_amended (bx b_y bw bh factor ar : ℚ)
    (hbw : 0 ≤ bw) (hbh : 0 < bh) (hf : 0 < factor) (har : 0 < ar) :
    bbox_for_path_f32 (.fin bx) (.fin b_y) (.fin bw) (.fin bh) (.fin factor)
        (.fin ar) =
      some (if ar < bw / bh then
          (F32.fin (bx - bw / factor * (1 - factor) / 2),
            F32.fin (b_y - (bw / factor / ar - bh) / 2),
            F32.fin (bw / factor), F32.fin (bw / factor / ar))
        else
          (F32.fin (bx - (bh / factor * ar - bw) / 2),
            F32.fin (b_y - bh / factor * (1 - factor) / 2),
            F32.fin (bh / factor * ar), F32.fin (bh / factor))) := by
  have hbhz : ¬ (bh = 0) := hbh.ne'
  have hfz : ¬ (factor = 0) := hf.ne'
  have harz : ¬ (ar = 0) := har.ne'
  have h2 : ¬ ((2 : ℚ) = 0) := by norm_num
  have hw1 : 0 ≤ bw / factor := div_nonneg hbw hf.le
  have hh1 : 0 ≤ bw / factor / ar := div_nonneg hw1 har.le
  have hh2 : 0 ≤ bh / factor := div_nonneg hbh.le hf.le
  have hw2 : 0 ≤ bh / factor * ar := mul_nonneg hh2 har.le
  by_cases hbr : ar < bw / bh
  · simp only [bbox_for_path_f32, F32.div, F32.gt, F32.sub, F32.mul, rectFromXYWH,
      F32.isFinite, F32.nonneg, if_neg hbhz, if_neg hfz, if_neg harz, if_neg h2,
      hbr, decide_eq_true_eq, if_true, if_pos hbr]
    simp [hw1, hh1]
  · simp only [bbox_for_path_f32, F32.div, F32.gt, F32.sub, F32.mul, rectFromXYWH,
      F32.isFinite, F32.nonneg, if_neg hbhz, if_neg hfz, if_neg harz, if_neg h2,
      hbr, decide_eq_true_eq, if_false, if_neg hbr]
    simp [hw2, hh2]

/-- Witness for C3 (amended) at the claim's scenario: a 100×100 bounding box at
`(50, 50)` with `factor = 1` and aspect ratio `1` fits to
width = height = 100 at `(50, 50)`, and the unwrap succeeds. -/
theorem bbox_for_path_formula_amended_witness :
    bbox_for_path_f32 (.fin 50) (.fin 50) (.fin 100) (.fin 100) (.fin 1)
        (.fin 1) = some (.fin 50, .fin 50, .fin 100, .fin 100) :=
  (bbox_for_path_formula_amended 50 50 100 100 1 1 (by norm_num) (by norm_num)
      (by norm_num) (by norm_num)).trans (by norm_num)

/-! ### `render_territories`, scene construction (lib.rs lines 395-448)

The fill and stroke `HashMap`s are embedded as association lists whose keys are
pairwise distinct (a `HashMap` invariant); iteration order is the list order (the
source's iteration order is unspecified, and none of the properties below depend
on it).  A `usvg::Path` element is reduced to the territory id it draws plus the
fill/stroke paint it carries; `usvg::NormalizedF32::new` is the `Option`-valued
constructor and a `none` result anywhere models the corresponding `.unwrap()`
panic. -/

/-- Model of `RenderInstruction` (lib.rs 383-387): an RGB colour plus an opacity. -/
structure RenderInstruction where
  colour : Nat × Nat × Nat
  opacity : ℚ
deriving DecidableEq

/-- Model of `usvg::NormalizedF32::new`: `some` iff the value lies in `[0, 1]`. -/
def normalizedF32 (v : ℚ) : Option ℚ :=
  if 0 ≤ v ∧ v ≤ 1 then some v else none

/-- One emitted `usvg::Path` element: drawn territory id, optional fill paint and
optional stroke paint (colour with validated opacity). -/
structure UPath where
  id : List Nat
  fill : Option ((Nat × Nat × Nat) × ℚ)
  stroke : Option ((Nat × Nat × Nat) × ℚ)
deriving DecidableEq

/-- Model of `HashMap::get`-style lookup in the association list. -/
def lookupKey (m : List (List Nat × RenderInstruction)) (id : List Nat) :
    Option RenderInstruction :=
  (m.find? (fun p => p.1 == id)).map Prod.snd

/-- Key removal of `HashMap::remove`. -/
def removeKey (m : List (List Nat × RenderInstruction)) (id : List Nat) :
    List (List Nat × RenderInstruction) :=
  m.filter (fun p => !(p.1 == id))

/-- The `usvg::Stroke` built at lib.rs 413-422 / 435-444 from a stroke
instruction; `NormalizedF32::new(i.opacity).unwrap()` is the `Option` bind. -/
def mkBorder (i : RenderInstruction) : Option ((Nat × Nat × Nat) × ℚ) :=
  (normalizedF32 i.opacity).map (fun o => (i.colour, o))

/-- Model of `stroke.remove(id).map(|i| usvg::Stroke { .. })` (lib.rs 413-422): absent
entry means no border; a present entry must pass opacity validation (the unwrap
inside the closure), which the outer `Option` layer records. -/
def borderStep : Option RenderInstruction →
    Option (Option ((Nat × Nat × Nat) × ℚ))
  | some i => (mkBorder i).map some
  | none => some none

/-- First loop of `render_territories` (lib.rs 412-432): for each fill entry,
take (and remove) its stroke entry, validate the opacities, and emit one filled
(and possibly stroked) path element.  Returns the emitted elements and the
remaining stroke map. -/
def fillLoop : List (List Nat × RenderInstruction) →
    List (List Nat × RenderInstruction) →
    Option (List UPath × List (List Nat × RenderInstruction))
  | [], stroke => some ([], stroke)
  | (id, inst) :: rest, stroke => do
    let border ← borderStep (lookupKey stroke id)
    let fo ← normalizedF32 inst.opacity
    let (paths, strokeF) ← fillLoop rest (removeKey stroke id)
    some (⟨id, some (inst.colour, fo), border⟩ :: paths, strokeF)

/-- Second loop (lib.rs 434-448): each remaining stroke entry becomes one
border-only path element. -/
def strokeLoop : List (List Nat × RenderInstruction) → Option (List UPath)
  | [] => some []
  | (id, inst) :: rest => do
    let b ← mkBorder inst
    let paths ← strokeLoop rest
    some (⟨id, none, some b⟩ :: paths)

/-- The full scene built by `render_territories` (lib.rs 412-448), in emission
order; `none` models a panicking unwrap on an out-of-range opacity. -/
def renderShapes (fill stroke : List (List Nat × RenderInstruction)) :
    Option (List UPath) := do
  let (paths, strokeF) ← fillLoop fill stroke
  let rest ← strokeLoop strokeF
  some (paths ++ rest)

@[simp] theorem normalizedF32_isSome (v : ℚ) :
    (normalizedF32 v).isSome = true ↔ 0 ≤ v ∧ v ≤ 1 := by
  unfold normalizedF32
  split_ifs with h <;> simp [h]

@[simp] theorem mkBorder_isSome (i : RenderInstruction) :
    (mkBorder i).isSome = true ↔ 0 ≤ i.opacity ∧ i.opacity ≤ 1 := by
  unfold mkBorder normalizedF32
  split_ifs with h <;> simp [h]

theorem lookupKey_removeKey_ne (stroke : List (List Nat × RenderInstruction))
    (id k : List Nat) (hne : k ≠ id) :
    lookupKey (removeKey stroke id) k = lookupKey stroke k := by
  simp only [lookupKey, removeKey]
  induction stroke with
  | nil => rfl
  | cons q rest ih =>
    by_cases hqid : q.1 = id
    · have b1 : (q.1 == id) = true := by simp [hqid]
      have b2 : (q.1 == k) = false := by simp [hqid, Ne.symm hne]
      simp only [List.filter_cons, List.find?_cons, b1, b2, Bool.not_true, if_false,
        cond_false]
      exact ih
    · have b1 : (q.1 == id) = false := by simp [hqid]
      by_cases hqk : q.1 = k
      · have b2 : (q.1 == k) = true := by simp [hqk]
        simp only [List.filter_cons, List.find?_cons, b1, b2, Bool.not_false, if_true,
          cond_true]
      · have b2 : (q.1 == k) = false := by simp [hqk]
        simp only [List.filter_cons, List.find?_cons, b1, b2, Bool.not_false, if_true,
          cond_false]
        exact ih

theorem lookupKey_eq_some (stroke : List (List Nat × RenderInstruction))
    (id : List Nat) (si : RenderInstruction)
    (hs : (stroke.map Prod.fst).Nodup) (hmem : (id, si) ∈ stroke) :
    lookupKey stroke id = some si := by
  simp only [lookupKey]
  induction stroke with
  | nil => cases hmem
  | cons q rest ih =>
    simp only [List.map_cons, List.nodup_cons] at hs
    rcases List.mem_cons.mp hmem with hq | hq
    · cases hq
      simp [List.find?_cons]
    · have hne : q.1 ≠ id := by
        intro he
        exact hs.1 (he ▸ (List.mem_map.mpr ⟨(id, si), hq, rfl⟩))
      have b1 : (q.1 == id) = false := by simp [hne]
      simp only [List.find?_cons, b1, cond_false]
      exact ih hs.2 hq

theorem lookupKey_eq_none (stroke : List (List Nat × RenderInstruction))
    (id : List Nat) (hnone : ∀ q ∈ stroke, q.1 ≠ id) :
    lookupKey stroke id = none := by
  simp only [lookupKey]
  induction stroke with
  | nil => rfl
  | cons q rest ih =>
    have b1 : (q.1 == id) = false := by
      simp [hnone q (List.mem_cons_self q rest)]
    simp only [List.find?_cons, b1, cond_false]
    exact ih (fun p hp => hnone p (List.mem_cons_of_mem q hp))

theorem normalizedF32_eq_some (v o : ℚ) :
    normalizedF32 v = some o ↔ (0 ≤ v ∧ v ≤ 1) ∧ o = v := by
  unfold normalizedF32
  split_ifs with h <;> simp [h, eq_comm]

theorem mkBorder_eq_some (i : RenderInstruction) (b : (Nat × Nat × Nat) × ℚ) :
    mkBorder i = some b ↔
      (0 ≤ i.opacity ∧ i.opacity ≤ 1) ∧ b = (i.colour, i.opacity) := by
  unfold mkBorder normalizedF32
  split_ifs with h
  · simp [h, eq_comm]
  · simp [h]

/-- Value characterization of the remaining-stroke loop on success. -/
theorem strokeLoop_eq_some (l : List (List Nat × RenderInstruction)) :
    ∀ paths, strokeLoop l = some paths →
      paths = l.map (fun q => ⟨q.1, none, some (q.2.colour, q.2.opacity)⟩) := by
  induction l with
  | nil =>
    intro paths hsome
    cases hsome
    rfl
  | cons q rest ih =>
    intro paths hsome
    simp only [strokeLoop, Option.bind_eq_bind] at hsome
    cases hb : mkBorder q.2 with
    | none => rw [hb] at hsome; cases hsome
    | some b =>
      rw [hb] at hsome
      cases hrec : strokeLoop rest with
      | none => rw [hrec] at hsome; cases hsome
      | some paths' =>
        rw [hrec] at hsome
        simp only [Option.some_bind, Option.some.injEq] at hsome
        rw [mkBorder_eq_some] at hb
        rw [← hsome, hb.2, ih paths' hrec]
        rfl

/-- The remaining-stroke loop succeeds exactly when every remaining opacity is in
`[0, 1]`. -/
theorem strokeLoop_isSome (l : List (List Nat × RenderInstruction)) :
    (strokeLoop l).isSome = true ↔
      ∀ q ∈ l, 0 ≤ q.2.opacity ∧ q.2.opacity ≤ 1 := by
  induction l with
  | nil => simp [strokeLoop]
  | cons q rest ih =>
    simp only [strokeLoop, Option.bind_eq_bind]
    cases hb : mkBorder q.2 with
    | none =>
      have hbad : ¬ (0 ≤ q.2.opacity ∧ q.2.opacity ≤ 1) := by
        rw [← mkBorder_isSome q.2, hb]
        simp
      simp [hbad]
    | some b =>
      have hgood : 0 ≤ q.2.opacity ∧ q.2.opacity ≤ 1 := by
        rw [← mkBorder_isSome q.2, hb]
        rfl
      cases hrec : strokeLoop rest with
      | none =>
        rw [hrec] at ih
        simp only [Option.isSome_none, Bool.false_eq_true, false_iff] at ih
        simp only [Option.some_bind, Option.none_bind, Option.isSome_none,
          Bool.false_eq_true, false_iff]
        intro hall
        exact ih (fun p hp => hall p (List.mem_cons_of_mem q hp))
      | some paths' =>
        rw [hrec] at ih
        simp only [Option.isSome_some, true_iff] at ih
        simp only [Option.some_bind, Option.isSome_some, true_iff]
        intro p hp
        rcases List.mem_cons.mp hp with hq | hq
        · exact hq ▸ hgood
        · exact ih p hq

theorem mem_removeKey (stroke : List (List Nat × RenderInstruction))
    (id : List Nat) (q : List Nat × RenderInstruction) :
    q ∈ removeKey stroke id ↔ q ∈ stroke ∧ ¬ q.1 = id := by
  simp [removeKey, List.mem_filter]

theorem lookupKey_some_mem (stroke : List (List Nat × RenderInstruction))
    (id : List Nat) (i : RenderInstruction)
    (hlk : lookupKey stroke id = some i) : (id, i) ∈ stroke := by
  simp only [lookupKey, Option.map_eq_some'] at hlk
  obtain ⟨q0, hfind, hsnd⟩ := hlk
  have hmem := List.mem_of_find?_eq_some hfind
  have hkey := List.find?_some hfind
  rcases q0 with ⟨k, v⟩
  simp only [beq_iff_eq] at hkey
  simp only at hkey hsnd
  subst hkey
  subst hsnd
  exact hmem

theorem lookupKey_none_key_ne (stroke : List (List Nat × RenderInstruction))
    (id : List Nat) (hlk : lookupKey stroke id = none) :
    ∀ q ∈ stroke, q.1 ≠ id := by
  intro q hq he
  simp only [lookupKey, Option.map_eq_none', List.find?_eq_none] at hlk
  exact absurd (by simp [he]) (hlk q hq)

theorem stroke_value_unique (stroke : List (List Nat × RenderInstruction))
    (id : List Nat) (i : RenderInstruction) (q : List Nat × RenderInstruction)
    (hsd : (stroke.map Prod.fst).Nodup) (hq : q ∈ stroke) (heq : q.1 = id)
    (hlk : lookupKey stroke id = some i) : q.2 = i := by
  have h1 : lookupKey stroke id = some q.2 := by
    apply lookupKey_eq_some stroke id q.2 hsd
    have : q = (id, q.2) := by
      rcases q with ⟨k, v⟩
      simp only at heq
      rw [heq]
    exact this ▸ hq
  rw [hlk] at h1
  exact (Option.some.injEq _ _ ▸ h1).symm

/-- Value characterization of the fill loop on success: one element per fill
entry, each carrying the fill paint and the border looked up in the *original*
stroke map, and the leftover stroke map is the original minus the fill keys. -/
theorem fillLoop_eq_some (fill : List (List Nat × RenderInstruction)) :
    ∀ (stroke : List (List Nat × RenderInstruction)) paths strokeF,
      (fill.map Prod.fst).Nodup →
      fillLoop fill stroke = some (paths, strokeF) →
      paths = fill.map (fun p =>
        (⟨p.1, some (p.2.colour, p.2.opacity),
          (lookupKey stroke p.1).map (fun i => (i.colour, i.opacity))⟩ : UPath)) ∧
      strokeF = stroke.filter (fun q => decide (¬ q.1 ∈ fill.map Prod.fst)) := by
  induction fill with
  | nil =>
    intro stroke paths strokeF _ hsome
    simp only [fillLoop, Option.some.injEq, Prod.mk.injEq] at hsome
    obtain ⟨rfl, rfl⟩ := hsome
    simp
  | cons p rest ih =>
    intro stroke paths strokeF hnd hsome
    obtain ⟨id, inst⟩ := p
    simp only [List.map_cons, List.nodup_cons] at hnd
    simp only [fillLoop, Option.bind_eq_bind] at hsome
    cases hlk : lookupKey stroke id with
    | none =>
      rw [hlk] at hsome
      simp only [borderStep, Option.some_bind] at hsome
      cases hno : normalizedF32 inst.opacity with
      | none => rw [hno] at hsome; cases hsome
      | some fo =>
        rw [hno] at hsome
        simp only [Option.some_bind] at hsome
        cases hrec : fillLoop rest (removeKey stroke id) with
        | none => rw [hrec] at hsome; cases hsome
        | some pr =>
          obtain ⟨paths', strokeF'⟩ := pr
          rw [hrec] at hsome
          simp only [Option.some_bind, Option.some.injEq, Prod.mk.injEq] at hsome
          obtain ⟨rfl, rfl⟩ := hsome
          obtain ⟨hp, hs⟩ := ih (removeKey stroke id) paths' strokeF' hnd.2 hrec
          obtain ⟨-, rfl⟩ := (normalizedF32_eq_some inst.opacity fo).mp hno
          constructor
          · rw [hp]
            simp only [List.map_cons, hlk, Option.map_none']
            congr 1
            apply List.map_congr_left
            intro a ha
            have hne : a.1 ≠ id := by
              intro he
              exact hnd.1 (he ▸ (List.mem_map.mpr ⟨a, ha, rfl⟩))
            rw [lookupKey_removeKey_ne stroke id a.1 hne]
          · rw [hs, removeKey, List.filter_filter]
            apply List.filter_congr
            intro a _
            by_cases h1 : a.1 = id <;> by_cases h2 : a.1 ∈ rest.map Prod.fst <;>
              simp [h1, h2]
    | some i =>
      rw [hlk] at hsome
      simp only [borderStep] at hsome
      cases hb : mkBorder i with
      | none =>
        rw [hb] at hsome
        simp only [Option.map_none', Option.none_bind] at hsome
        cases hsome
      | some b =>
        rw [hb] at hsome
        simp only [Option.map_some', Option.some_bind] at hsome
        cases hno : normalizedF32 inst.opacity with
        | none => rw [hno] at hsome; cases hsome
        | some fo =>
          rw [hno] at hsome
          simp only [Option.some_bind] at hsome
          cases hrec : fillLoop rest (removeKey stroke id) with
          | none => rw [hrec] at hsome; cases hsome
          | some pr =>
            obtain ⟨paths', strokeF'⟩ := pr
            rw [hrec] at hsome
            simp only [Option.some_bind, Option.some.injEq, Prod.mk.injEq] at hsome
            obtain ⟨rfl, rfl⟩ := hsome
            obtain ⟨hp, hs⟩ := ih (removeKey stroke id) paths' strokeF' hnd.2 hrec
            obtain ⟨-, rfl⟩ := (normalizedF32_eq_some inst.opacity fo).mp hno
            obtain ⟨-, rfl⟩ := (mkBorder_eq_some i b).mp hb
            constructor
            · rw [hp]
              simp only [List.map_cons, hlk, Option.map_some']
              congr 1
              apply List.map_congr_left
              intro a ha
              have hne : a.1 ≠ id := by
                intro he
                exact hnd.1 (he ▸ (List.mem_map.mpr ⟨a, ha, rfl⟩))
              rw [lookupKey_removeKey_ne stroke id a.1 hne]
            · rw [hs, removeKey, List.filter_filter]
              apply List.filter_congr
              intro a _
              by_cases h1 : a.1 = id <;> by_cases h2 : a.1 ∈ rest.map Prod.fst <;>
                simp [h1, h2]

/-- The fill loop succeeds exactly when every fill opacity, and every stroke
opacity whose id is also a fill key, lies in `[0, 1]`. -/
theorem fillLoop_isSome (fill : List (List Nat × RenderInstruction)) :
    ∀ stroke : List (List Nat × RenderInstruction),
      (fill.map Prod.fst).Nodup → (stroke.map Prod.fst).Nodup →
      ((fillLoop fill stroke).isSome = true ↔
        (∀ p ∈ fill, 0 ≤ p.2.opacity ∧ p.2.opacity ≤ 1) ∧
        (∀ q ∈ stroke, q.1 ∈ fill.map Prod.fst →
          0 ≤ q.2.opacity ∧ q.2.opacity ≤ 1)) := by
  induction fill with
  | nil =>
    intro stroke _ _
    simp [fillLoop]
  | cons p rest ih =>
    intro stroke hnd hsd
    obtain ⟨id, inst⟩ := p
    simp only [List.map_cons, List.nodup_cons] at hnd
    have hrem : ((removeKey stroke id).map Prod.fst).Nodup := by
      have hsub : List.Sublist ((removeKey stroke id).map Prod.fst)
          (stroke.map Prod.fst) :=
        List.Sublist.map Prod.fst (List.filter_sublist stroke)
      exact hsd.sublist hsub
    simp only [fillLoop, Option.bind_eq_bind]
    cases hlk : lookupKey stroke id with
    | none =>
      have hne := lookupKey_none_key_ne stroke id hlk
      have hrw : removeKey stroke id = stroke := by
        rw [removeKey]
        apply List.filter_eq_self.mpr
        intro a ha
        simp [hne a ha]
      simp only [borderStep, Option.some_bind]
      cases hno : normalizedF32 inst.opacity with
      | none =>
        have hbad : ¬ (0 ≤ inst.opacity ∧ inst.opacity ≤ 1) := by
          rw [← normalizedF32_isSome inst.opacity, hno]
          simp
        simp only [Option.none_bind, Option.isSome_none, Bool.false_eq_true, false_iff]
        intro hall
        exact hbad (hall.1 (id, inst) (List.mem_cons_self _ _))
      | some fo =>
        simp only [Option.some_bind]
        have hv : 0 ≤ inst.opacity ∧ inst.opacity ≤ 1 := by
          rw [← normalizedF32_isSome inst.opacity, hno]
          rfl
        rw [hrw]
        have hmain := ih stroke hnd.2 hsd
        constructor
        · intro hs
          have hfl : (fillLoop rest stroke).isSome = true := by
            cases hflc : fillLoop rest stroke with
            | none => rw [hflc] at hs; simp at hs
            | some pr => rfl
          obtain ⟨h1, h2⟩ := hmain.mp hfl
          refine ⟨?_, ?_⟩
          · intro pp hpp
            rcases List.mem_cons.mp hpp with he | hm
            · exact he ▸ hv
            · exact h1 pp hm
          · intro q hq hqmem
            rcases List.mem_cons.mp hqmem with he | hm
            · exact absurd he (hne q hq)
            · exact h2 q hq hm
        · rintro ⟨h1, h2⟩
          have hfl : (fillLoop rest stroke).isSome = true := by
            apply hmain.mpr
            exact ⟨fun pp hpp => h1 pp (List.mem_cons_of_mem _ hpp),
              fun q hq hm => h2 q hq (List.mem_cons_of_mem _ hm)⟩
          cases hflc : fillLoop rest stroke with
          | none => rw [hflc] at hfl; simp at hfl
          | some pr =>
            obtain ⟨paths', strokeF'⟩ := pr
            rfl
    | some i =>
      have hmem : (id, i) ∈ stroke := lookupKey_some_mem stroke id i hlk
      simp only [borderStep]
      cases hb : mkBorder i with
      | none =>
        have hbad : ¬ (0 ≤ i.opacity ∧ i.opacity ≤ 1) := by
          rw [← mkBorder_isSome i, hb]
          simp
        simp only [Option.map_none', Option.none_bind, Option.isSome_none,
          Bool.false_eq_true, false_iff]
        intro hall
        exact hbad (hall.2 (id, i) hmem (by simp))
      | some b =>
        have hvi : 0 ≤ i.opacity ∧ i.opacity ≤ 1 := by
          rw [← mkBorder_isSome i, hb]
          rfl
        simp only [Option.map_some', Option.some_bind]
        cases hno : normalizedF32 inst.opacity with
        | none =>
          have hbad : ¬ (0 ≤ inst.opacity ∧ inst.opacity ≤ 1) := by
            rw [← normalizedF32_isSome inst.opacity, hno]
            simp
          simp only [Option.none_bind, Option.isSome_none, Bool.false_eq_true,
            false_iff]
          intro hall
          exact hbad (hall.1 (id, inst) (List.mem_cons_self _ _))
        | some fo =>
          simp only [Option.some_bind]
          have hv : 0 ≤ inst.opacity ∧ inst.opacity ≤ 1 := by
            rw [← normalizedF32_isSome inst.opacity, hno]
            rfl
          have hmain := ih (removeKey stroke id) hnd.2 hrem
          constructor
          · intro hs
            have hfl : (fillLoop rest (removeKey stroke id)).isSome = true := by
              cases hflc : fillLoop rest (removeKey stroke id) with
              | none => rw [hflc] at hs; simp at hs
              | some pr => rfl
            obtain ⟨h1, h2⟩ := hmain.mp hfl
            refine ⟨?_, ?_⟩
            · intro pp hpp
              rcases List.mem_cons.mp hpp with he | hm
              · exact he ▸ hv
              · exact h1 pp hm
            · intro q hq hqmem
              by_cases hq1 : q.1 = id
              · have hq2 : q.2 = i := stroke_value_unique stroke id i q hsd hq hq1 hlk
                rw [hq2]
                exact hvi
              · have hqrem : q ∈ removeKey stroke id :=
                  (mem_removeKey _ _ _).mpr ⟨hq, hq1⟩
                rcases List.mem_cons.mp hqmem with he | hm
                · exact absurd he hq1
                · exact h2 q hqrem hm
          · rintro ⟨h1, h2⟩
            have hfl : (fillLoop rest (removeKey stroke id)).isSome = true := by
              apply hmain.mpr
              refine ⟨fun pp hpp => h1 pp (List.mem_cons_of_mem _ hpp), ?_⟩
              intro q hq hm
              exact h2 q ((mem_removeKey _ _ _).mp hq).1 (List.mem_cons_of_mem _ hm)
            cases hflc : fillLoop rest (removeKey stroke id) with
            | none => rw [hflc] at hfl; simp at hfl
            | some pr =>
              obtain ⟨paths', strokeF'⟩ := pr
              rfl

theorem filter_map_comm {α β : Type} (f : α → β) (p : β → Bool) (l : List α) :
    (l.map f).filter p = (l.filter (fun a => p (f a))).map f := by
  induction l with
  | nil => rfl
  | cons a rest ih =>
    simp only [List.map_cons, List.filter_cons]
    cases hp : p (f a) <;> simp [hp, ih]

theorem filter_key_eq_singleton (l : List (List Nat × RenderInstruction))
    (id : List Nat) (v : RenderInstruction)
    (hnd : (l.map Prod.fst).Nodup) (hmem : (id, v) ∈ l) :
    l.filter (fun p => p.1 == id) = [(id, v)] := by
  induction l with
  | nil => cases hmem
  | cons q rest ih =>
    simp only [List.map_cons, List.nodup_cons] at hnd
    rcases List.mem_cons.mp hmem with hq | hq
    · cases hq
      rw [List.filter_cons]
      simp only [beq_self_eq_true, if_true]
      have : rest.filter (fun p => p.1 == id) = [] := by
        apply List.filter_eq_nil_iff.mpr
        intro a ha
        simp only [beq_iff_eq]
        intro he
        exact hnd.1 (he ▸ (List.mem_map.mpr ⟨a, ha, rfl⟩))
      rw [this]
    · have hqne : q.1 ≠ id := by
        intro he
        have hmm : id ∈ rest.map Prod.fst := List.mem_map.mpr ⟨(id, v), hq, rfl⟩
        exact hnd.1 (he ▸ hmm)
      have hb : (q.1 == id) = false := by simp [hqne]
      rw [List.filter_cons]
      simp only [hb, if_false]
      exact ih hnd.2 hq

/-- C5.  For a territory id present in both the fill and the stroke map, the
scene contains exactly one path element drawing that id, carrying both the fill
colour/opacity and the stroke colour/opacity (the id having been removed from
the stroke set before the stroke-only pass, its border is never drawn a second
time); and the total number of emitted path elements equals the number of ids in
the union of the two maps' key sets. -/
theorem render_territories_dedup
    (fill stroke : List (List Nat × RenderInstruction))
    (hf : (fill.map Prod.fst).Nodup) (hs : (stroke.map Prod.fst).Nodup)
    (id : List Nat) (fi si : RenderInstruction)
    (hfi : (id, fi) ∈ fill) (hsi : (id, si) ∈ stroke)
    (shapes : List UPath) (hsome : renderShapes fill stroke = some shapes) :
    shapes.filter (fun sh => sh.id == id) =
      [⟨id, some (fi.colour, fi.opacity), some (si.colour, si.opacity)⟩] ∧
    shapes.length =
      ((fill.map Prod.fst).toFinset ∪ (stroke.map Prod.fst).toFinset).card := by
  simp only [renderShapes, Option.bind_eq_bind] at hsome
  cases hfl : fillLoop fill stroke with
  | none => rw [hfl] at hsome; cases hsome
  | some pr =>
    obtain ⟨paths, strokeF⟩ := pr
    rw [hfl] at hsome
    simp only [Option.some_bind] at hsome
    cases hsl : strokeLoop strokeF with
    | none => rw [hsl] at hsome; cases hsome
    | some rest =>
      rw [hsl] at hsome
      simp only [Option.some_bind, Option.some.injEq] at hsome
      subst hsome
      obtain ⟨hpaths, hstrokeF⟩ := fillLoop_eq_some fill stroke paths strokeF hf hfl
      have hrest := strokeLoop_eq_some strokeF rest hsl
      constructor
      · rw [List.filter_append, hpaths, hrest, filter_map_comm, filter_map_comm]
        have e1 : fill.filter
            (fun a => ((⟨a.1, some (a.2.colour, a.2.opacity),
              (lookupKey stroke a.1).map (fun i => (i.colour, i.opacity))⟩ : UPath)).id
                == id) = [(id, fi)] := by
          exact filter_key_eq_singleton fill id fi hf hfi
        have e2 : strokeF.filter
            (fun a => ((⟨a.1, none, some (a.2.colour, a.2.opacity)⟩ : UPath)).id
              == id) = [] := by
          apply List.filter_eq_nil_iff.mpr
          intro a ha
          rw [hstrokeF] at ha
          have hnid : ¬ a.1 ∈ fill.map Prod.fst := by
            have := (List.mem_filter.mp ha).2
            simpa using this
          simp only [beq_iff_eq]
          intro he
          exact hnid (he ▸ (List.mem_map.mpr ⟨(id, fi), hfi, rfl⟩))
        rw [e1, e2]
        simp only [List.map_cons, List.map_nil, List.append_nil]
        rw [lookupKey_eq_some stroke id si hs hsi]
        rfl
      · rw [List.length_append, hpaths, hrest, List.length_map, List.length_map]
        have hAcard : (fill.map Prod.fst).toFinset.card = fill.length := by
          rw [List.toFinset_card_of_nodup hf, List.length_map]
        have hkeysF : strokeF.map Prod.fst =
            (stroke.map Prod.fst).filter
              (fun k => decide (¬ k ∈ fill.map Prod.fst)) := by
          rw [hstrokeF]
          exact (filter_map_comm Prod.fst
            (fun k => decide (¬ k ∈ fill.map Prod.fst)) stroke).symm
        have hBnd : ((stroke.map Prod.fst).filter
            (fun k => decide (¬ k ∈ fill.map Prod.fst))).Nodup :=
          hs.sublist (List.filter_sublist (stroke.map Prod.fst))
        have hBcard : strokeF.length =
            ((stroke.map Prod.fst).toFinset \ (fill.map Prod.fst).toFinset).card := by
          have hlen : strokeF.length = (strokeF.map Prod.fst).length :=
            (List.length_map _ _).symm
          rw [hlen, hkeysF, ← List.toFinset_card_of_nodup hBnd]
          congr 1
          apply Finset.ext
          intro k
          simp [List.mem_filter, List.mem_toFinset, Finset.mem_sdiff]
        rw [hBcard, ← hAcard, Finset.union_comm,
          ← Finset.card_sdiff_add_card ((stroke.map Prod.fst).toFinset)
            ((fill.map Prod.fst).toFinset)]
        exact Nat.add_comm _ _

/-- C9.  With fill and stroke maps whose keys are pairwise distinct (the
`HashMap` invariant), the scene construction succeeds — every `NormalizedF32`
opacity construction (fill, shared-id stroke, and stroke-only) is safe —
precisely when every instruction's opacity in both maps lies in `[0, 1]`; an
entry with an opacity outside `[0, 1]` makes the construction panic (`none`)
instead of returning an error. -/
theorem render_territories_opacity
    (fill stroke : List (List Nat × RenderInstruction))
    (hf : (fill.map Prod.fst).Nodup) (hs : (stroke.map Prod.fst).Nodup) :
    (renderShapes fill stroke).isSome = true ↔
      (∀ p ∈ fill, 0 ≤ p.2.opacity ∧ p.2.opacity ≤ 1) ∧
      (∀ q ∈ stroke, 0 ≤ q.2.opacity ∧ q.2.opacity ≤ 1) := by
  simp only [renderShapes, Option.bind_eq_bind]
  cases hfl : fillLoop fill stroke with
  | none =>
    simp only [Option.none_bind, Option.isSome_none, Bool.false_eq_true, false_iff]
    rintro ⟨h1, h2⟩
    have hsome : (fillLoop fill stroke).isSome = true :=
      (fillLoop_isSome fill stroke hf hs).mpr ⟨h1, fun q hq _ => h2 q hq⟩
    rw [hfl] at hsome
    simp at hsome
  | some pr =>
    obtain ⟨paths, strokeF⟩ := pr
    simp only [Option.some_bind]
    obtain ⟨hfill1, hfill2⟩ := (fillLoop_isSome fill stroke hf hs).mp (by rw [hfl]; rfl)
    obtain ⟨-, hstrokeF⟩ := fillLoop_eq_some fill stroke paths strokeF hf hfl
    have hmain := strokeLoop_isSome strokeF
    constructor
    · intro hsome
      have hsl : (strokeLoop strokeF).isSome = true := by
        cases hslc : strokeLoop strokeF with
        | none => rw [hslc] at hsome; simp at hsome
        | some rest => rfl
      have hrem := hmain.mp hsl
      refine ⟨hfill1, ?_⟩
      intro q hq
      by_cases hmemf : q.1 ∈ fill.map Prod.fst
      · exact hfill2 q hq hmemf
      · apply hrem q
        rw [hstrokeF]
        exact List.mem_filter.mpr ⟨hq, by simpa using hmemf⟩
    · rintro ⟨h1, h2⟩
      have hsl : (strokeLoop strokeF).isSome = true := by
        apply hmain.mpr
        intro q hq
        rw [hstrokeF] at hq
        exact h2 q (List.mem_filter.mp hq).1
      cases hslc : strokeLoop strokeF with
      | none => rw [hslc] at hsl; simp at hsl
      | some rest => rfl

/-- Concrete one-entry maps sharing the id `[1]`, for the C5 and C9 witnesses:
fill with colour `(10, 20, 30)` at opacity 1, stroke with colour `(40, 50, 60)`
at opacity 0. -/
def fillW : List (List Nat × RenderInstruction) := [([1], ⟨(10, 20, 30), 1⟩)]

def strokeW : List (List Nat × RenderInstruction) := [([1], ⟨(40, 50, 60), 0⟩)]

/-- Witness for C5: on the one-entry maps sharing id `[1]`, the scene is the
single filled+stroked element and the shape count is 1, the size of the key
union. -/
theorem render_territories_dedup_witness :
    ([(⟨[1], some ((10, 20, 30), 1), some ((40, 50, 60), 0)⟩ : UPath)].filter
        (fun sh => sh.id == [1]) =
      [⟨[1], some ((10, 20, 30), 1), some ((40, 50, 60), 0)⟩]) ∧
    ([(⟨[1], some ((10, 20, 30), 1), some ((40, 50, 60), 0)⟩ : UPath)]).length =
      ((fillW.map Prod.fst).toFinset ∪ (strokeW.map Prod.fst).toFinset).card :=
  render_territories_dedup fillW strokeW (by decide) (by decide) [1]
    ⟨(10, 20, 30), 1⟩ ⟨(40, 50, 60), 0⟩ (by decide) (by decide)
    [⟨[1], some ((10, 20, 30), 1), some ((40, 50, 60), 0)⟩] (by decide)

/-- Witness for C9: on the same maps, whose opacities 1 and 0 are in range, the
scene construction succeeds. -/
theorem render_territories_opacity_witness :
    (renderShapes fillW strokeW).isSome = true :=
  (render_territories_opacity fillW strokeW (by decide) (by decide)).mpr
    ⟨by decide, by decide⟩

/-! ### `render_territories`, rasterization and compositing (lib.rs 450-498)

The vector rasterizer (`resvg::Tree::from_usvg` + `render` into a
`Pixmap::new(scaled_width, scaled_height)`, lib.rs 458-479) is abstracted as a
pixel function `rasterizePix`; the `Pixmap`/`RgbaImage::from_raw` pair fixes the
raster's dimensions to exactly `scaled_width × scaled_height`.  The per-pixel
alpha blend of `image::imageops::overlay` is abstracted as `blend`. -/

/-- Model of `RenderScale` (lib.rs 389-393). -/
inductive RenderScale where
  | X1
  | X4

/-- The `match scale` at lib.rs 450-453. -/
def scaleFactor : RenderScale → Nat
  | .X1 => 1
  | .X4 => 4

/-- An RGBA pixel. -/
abbrev Rgba := Nat × Nat × Nat × Nat

/-- Model of `ConvertBuffer`: `GrayImage → RgbaImage`, luma `p` becomes `(p, p, p, 255)`. -/
def convertIm (g : Img Nat) : Img Rgba :=
  ⟨g.width, g.height, fun i j => (g.pix i j, g.pix i j, g.pix i j, 255)⟩

/-- Model of `image::imageops::crop(img, x, y, w, h).to_image()`: the rectangle is
clipped to the image bounds before extraction. -/
def cropIm {α : Type} (img : Img α) (x y w h : Nat) : Img α :=
  ⟨min w (img.width - min x img.width), min h (img.height - min y img.height),
    fun i j => img.pix (min x img.width + i) (min y img.height + j)⟩

/-- Model of `image::imageops::overlay(bottom, top, 0, 0)`: alpha-composite `top` onto
`bottom`; pixels beyond `top`'s extent are unchanged and the result keeps
`bottom`'s dimensions. -/
def overlayIm (blend : Rgba → Rgba → Rgba) (bottom top : Img Rgba) : Img Rgba :=
  ⟨bottom.width, bottom.height, fun i j =>
    if i < top.width ∧ j < top.height then blend (bottom.pix i j) (top.pix i j)
    else bottom.pix i j⟩

/-- Model of `render_territories` from the scale computation on (lib.rs 450-497):
rasterize the scene at `view_port.width/scale × view_port.height/scale`, pick
the background — the full-resolution tile stitch of `view_port` for `X1`, the
pre-downscaled whole-map tile cropped at `view_port/4` for `X4` — convert it to
colour, and overlay the rasterized shape layer on top. -/
def render_territories_image (tiles : Nat → Nat → Img Nat) (x4 : Img Nat)
    (rasterizePix : Nat → Nat → Nat → Nat → Rgba) (blend : Rgba → Rgba → Rgba)
    (view_port : URect) (scale : RenderScale) : Img Rgba :=
  let scale_factor := scaleFactor scale
  let scaled_width := view_port.width / scale_factor
  let scaled_height := view_port.height / scale_factor
  let shapes : Img Rgba :=
    ⟨scaled_width, scaled_height, rasterizePix scaled_width scaled_height⟩
  let background : Img Rgba :=
    match scale with
    | RenderScale.X1 =>
      convertIm (load_map_segment tiles view_port.x view_port.y
        view_port.width view_port.height)
    | RenderScale.X4 =>
      convertIm (cropIm x4 (view_port.x / 4) (view_port.y / 4)
        scaled_width scaled_height)
  overlayIm blend background shapes

theorem lmsGo_dims (tiles : Nat → Nat → Img Nat) (x y w h : Nat) :
    ∀ (fuel cx cy : Nat) (img : Img Nat),
      (lmsGo tiles x y w h fuel img cx cy).width = img.width ∧
      (lmsGo tiles x y w h fuel img cx cy).height = img.height := by
  intro fuel
  induction fuel with
  | zero => intro cx cy img; exact ⟨rfl, rfl⟩
  | succ fuel ih =>
    intro cx cy img
    simp only [lmsGo]
    by_cases hcy : cy < y + h
    · rw [if_pos hcy]
      by_cases hwrap : x + w ≤ cx +
          min ((x + w) - cx) (TILE_WIDTH - cx % TILE_WIDTH)
      · rw [if_pos hwrap]
        exact ih _ _ _
      · rw [if_neg hwrap]
        exact ih _ _ _
    · rw [if_neg hcy]
      exact ⟨rfl, rfl⟩

theorem load_map_segment_dims (tiles : Nat → Nat → Img Nat) (x y w h : Nat) :
    (load_map_segment tiles x y w h).width = w ∧
    (load_map_segment tiles x y w h).height = h :=
  lmsGo_dims tiles x y w h (lmsFuel x y w h) x y ⟨w, h, fun _ _ => 0⟩

/-- C6.  For a viewport inside the map and either scale, `render_territories`
returns an image of exactly `view_port.width/scale × view_port.height/scale`
pixels, each the alpha-blend of the grayscale-converted-to-colour background —
`load_map_segment(view_port)` at scale 1, the pre-downscaled whole-map tile
cropped at `view_port/4` at scale 4 — under the shape layer rasterized at those
same dimensions. -/
theorem render_territories_image_spec (tiles : Nat → Nat → Img Nat) (x4 : Img Nat)
    (rasterizePix : Nat → Nat → Nat → Nat → Rgba) (blend : Rgba → Rgba → Rgba)
    (vp : URect) (scale : RenderScale)
    (hx : vp.x + vp.width ≤ MAP_WIDTH) (hy : vp.y + vp.height ≤ MAP_HEIGHT)
    (hx4w : x4.width = MAP_WIDTH / 4) (hx4h : x4.height = MAP_HEIGHT / 4) :
    (render_territories_image tiles x4 rasterizePix blend vp scale).width =
        vp.width / scaleFactor scale ∧
    (render_territories_image tiles x4 rasterizePix blend vp scale).height =
        vp.height / scaleFactor scale ∧
    ∀ i j, i < vp.width / scaleFactor scale → j < vp.height / scaleFactor scale →
      (render_territories_image tiles x4 rasterizePix blend vp scale).pix i j =
        blend
          (match scale with
            | RenderScale.X1 =>
              ((load_map_segment tiles vp.x vp.y vp.width vp.height).pix i j,
                (load_map_segment tiles vp.x vp.y vp.width vp.height).pix i j,
                (load_map_segment tiles vp.x vp.y vp.width vp.height).pix i j, 255)
            | RenderScale.X4 =>
              (x4.pix (vp.x / 4 + i) (vp.y / 4 + j),
                x4.pix (vp.x / 4 + i) (vp.y / 4 + j),
                x4.pix (vp.x / 4 + i) (vp.y / 4 + j), 255))
          (rasterizePix (vp.width / scaleFactor scale)
            (vp.height / scaleFactor scale) i j) := by
  obtain ⟨hlw, hlh⟩ := load_map_segment_dims tiles vp.x vp.y vp.width vp.height
  simp only [MAP_WIDTH, MAP_HEIGHT] at hx hy hx4w hx4h
  cases scale with
  | X1 =>
    simp only [render_territories_image, scaleFactor, overlayIm, convertIm,
      Nat.div_one]
    refine ⟨hlw, hlh, ?_⟩
    intro i j hi hj
    rw [if_pos ⟨hi, hj⟩]
  | X4 =>
    have c1 : min (vp.x / 4) x4.width = vp.x / 4 := by omega
    have c2 : min (vp.width / 4) (x4.width - vp.x / 4) = vp.width / 4 := by omega
    have c3 : min (vp.y / 4) x4.height = vp.y / 4 := by omega
    have c4 : min (vp.height / 4) (x4.height - vp.y / 4) = vp.height / 4 := by omega
    simp only [render_territories_image, scaleFactor, overlayIm, convertIm, cropIm,
      c1, c2, c3, c4]
    refine ⟨trivial, trivial, ?_⟩
    intro i j hi hj
    rw [if_pos ⟨hi, hj⟩]

/-- A concrete downscaled whole-map tile for the C6 witness. -/
def x4W : Img Nat := ⟨1564, 912, fun _ _ => 7⟩

/-- Witness for C6 at the whole-map viewport, scale 4: the output has the
downscaled dimensions and its pixel `(3, 5)` is the blend of the cropped
background pixel and the rasterized shape pixel. -/
theorem render_territories_image_spec_witness :
    (render_territories_image tilesW x4W (fun _ _ _ _ => (1, 2, 3, 4))
        (fun _ top => top) ⟨0, 0, 6256, 3648⟩ RenderScale.X4).width = 6256 / 4 ∧
    (render_territories_image tilesW x4W (fun _ _ _ _ => (1, 2, 3, 4))
        (fun _ top => top) ⟨0, 0, 6256, 3648⟩ RenderScale.X4).pix 3 5 =
      (1, 2, 3, 4) :=
  ⟨(render_territories_image_spec tilesW x4W (fun _ _ _ _ => (1, 2, 3, 4))
      (fun _ top => top) ⟨0, 0, 6256, 3648⟩ RenderScale.X4 (by decide) (by decide)
      (by decide) (by decide)).1,
    (render_territories_image_spec tilesW x4W (fun _ _ _ _ => (1, 2, 3, 4))
      (fun _ top => top) ⟨0, 0, 6256, 3648⟩ RenderScale.X4 (by decide) (by decide)
      (by decide) (by decide)).2.2 3 5 (by decide) (by decide)⟩

end TornTerritories
